import Mathlib

/-!
# shared/util.go of distrobuilder

A shallow embedding of `GetExpiryDate`, `CreateGPGKeyring` and `VerifyFile`
from `shared/util.go`, together with the parts of the Go standard library
(`strconv.Atoi`, the leftmost-first matching of package `regexp` and its
`FindAllStringSubmatch` loop, `time.Time.Add`) and of `lxd/shared`
(`RunCommand`) they rest on.

Go strings are modelled by their sequence of runes (`List Char`); the
strings this file scans are duration formats, whose meaningful characters
are ASCII.

The definitions come first: the embedding, then the vocabulary of the
statements, which includes a closed form of what the pattern of
`GetExpiryDate` matches (`matchGroup`, `matchStar`); the closed form is
proved equal to the backtracking matcher on that pattern before it is used.
-/

namespace strconv

/-- The two error kinds a `*NumError` of package strconv carries. -/
inductive NumError where
  | ErrSyntax
  | ErrRange
  deriving DecidableEq, Repr

/-- `maxUint64 = 1<<64 - 1`. -/
def maxUint64 : Nat := 2 ^ 64 - 1

/-- Truncation of an integer to Go's `int` / `int64` (two's complement, 64 bit). -/
def wrapInt64 (x : Int) : Int := (x + 2 ^ 63) % 2 ^ 64 - 2 ^ 63

/-- The digit loop of `ParseUint(s, 10, 64)`: `n` is the accumulator, `cutoff`
is `maxUint64/10 + 1` and `maxVal` is `1<<64 - 1`. Arithmetic is `uint64`,
so the sum `n*10 + d` is taken modulo `2^64` and the test `n1 < n` detects
the wrap. -/
def ParseUintLoop : List Char → Nat → Nat × Option NumError
  | [], n => (n, none)
  | c :: cs, n =>
    if '0' ≤ c ∧ c ≤ '9' then
      let d := c.toNat - '0'.toNat
      if n ≥ maxUint64 / 10 + 1 then (maxUint64, some NumError.ErrRange)
      else
        let n10 := (n * 10) % 2 ^ 64
        let n1 := (n10 + d) % 2 ^ 64
        if n1 < n10 ∨ n1 > maxUint64 then (maxUint64, some NumError.ErrRange)
        else ParseUintLoop cs n1
    else (0, some NumError.ErrSyntax)

/-- `ParseUint(s, 10, 64)`: the empty string is a syntax error, any byte that
is not a decimal digit is a syntax error, a value above `maxUint64` is a
range error reported with the value `maxUint64`. -/
def ParseUint (s : List Char) : Nat × Option NumError :=
  if s = [] then (0, some NumError.ErrSyntax) else ParseUintLoop s 0

/-- `ParseInt(s, 10, 0)` on a 64-bit platform: picks off a leading sign,
converts the rest with `ParseUint`, and checks the signed range
(`cutoff = 1<<63`). -/
def ParseInt (s0 : List Char) : Int × Option NumError :=
  match s0 with
  | [] => (0, some NumError.ErrSyntax)
  | c :: cs =>
    let neg := c == '-'
    let s := if c == '+' ∨ c == '-' then cs else s0
    let r := ParseUint s
    if r.2 = some NumError.ErrSyntax then (0, some NumError.ErrSyntax)
    else if ¬ neg ∧ r.1 ≥ 2 ^ 63 then ((2 : Int) ^ 63 - 1, some NumError.ErrRange)
    else if neg ∧ r.1 > 2 ^ 63 then (-(2 : Int) ^ 63, some NumError.ErrRange)
    else (if neg then -(r.1 : Int) else (r.1 : Int), none)

/-- The fast-path loop of `Atoi`: `n = n*10 + int(ch)` in `int` arithmetic,
any byte outside `'0'..'9'` is a syntax error. -/
def AtoiFastLoop : List Char → Int → Option Int
  | [], n => some n
  | c :: cs, n =>
    if '0' ≤ c ∧ c ≤ '9' then
      AtoiFastLoop cs (wrapInt64 (n * 10 + ((c.toNat - '0'.toNat : Nat) : Int)))
    else none

/-- `strconv.Atoi` with `intSize = 64`: strings of 1 to 18 bytes take the
fast path, everything else goes through `ParseInt(s, 10, 0)`. Returns the
value and the error, as Go does. -/
def Atoi (s0 : List Char) : Int × Option NumError :=
  if 0 < s0.length ∧ s0.length < 19 then
    match s0 with
    | [] => (0, some NumError.ErrSyntax)
    | c :: cs =>
      let s := if c == '-' ∨ c == '+' then cs else s0
      if s.length < 1 then (0, some NumError.ErrSyntax)
      else
        match AtoiFastLoop s 0 with
        | none => (0, some NumError.ErrSyntax)
        | some n => (if c == '-' then wrapInt64 (-n) else n, none)
  else ParseInt s0

end strconv

namespace time

/-- A `time.Duration` is an `int64` count of nanoseconds. -/
abbrev Duration := Int

def Nanosecond : Duration := 1
def Microsecond : Duration := 1000 * Nanosecond
def Millisecond : Duration := 1000 * Microsecond
def Second : Duration := 1000 * Millisecond
def Minute : Duration := 60 * Second
def Hour : Duration := 60 * Minute

/-- An instant, as a count of nanoseconds since a fixed epoch. The range of
instants is taken to be unbounded: only `Duration` arithmetic is 64-bit. -/
abbrev Time := Int

/-- `t.Add(d)`: the instant `t + d`. -/
def Time.Add (t : Time) (d : Duration) : Time := t + d

end time

namespace regexp

/-- The class `\d`: in Go's RE2 syntax the Perl classes are ASCII-only, so
`\d` is `[0-9]`. -/
def isDigit (c : Char) : Bool := decide ('0' ≤ c ∧ c ≤ '9')

/-- The syntax of the regular expressions this file needs: a character
class, concatenation, alternation (the left branch is preferred), the greedy
star and plus, and a numbered capturing group. A non-capturing group
`(?:...)` is just its body. -/
inductive Regexp where
  | charClass (p : Char → Bool)
  | concat (a b : Regexp)
  | alternate (a b : Regexp)
  | star (a : Regexp)
  | plus (a : Regexp)
  | capture (i : Nat) (a : Regexp)

/-- A literal character. -/
def lit (c : Char) : Regexp := Regexp.charClass (fun x => x == c)

/-- The strings of a match: `match[0]` is the text of the whole match,
`match[i]` the text of capturing group `i`, the empty string while it is
unset. -/
abbrev Submatch := List (List Char)

/-- A successful match: its strings and the input left after it. -/
abbrev Thread := Submatch × List Char

/-- What remains to be matched after a sub-expression: a function of the
input left and the captures so far. -/
abbrev Cont := List Char → Submatch → Option Thread

/-- The greedy loop of `a*`: first try one more iteration of the body and
then the loop again, and only when that fails leave the loop. An iteration
has to consume input to be repeated, so the loop runs at most `length of the
input` times, which is the fuel it is given. The captures travel with each
attempt, so a failed attempt leaves those of the last successful iteration. -/
def starLoop (body : List Char → Submatch → Cont → Option Thread) :
    Nat → List Char → Submatch → Cont → Option Thread
  | 0, s, caps, k => k s caps
  | fuel + 1, s, caps, k =>
    match body s caps (fun s1 caps1 =>
        if s1.length < s.length then starLoop body fuel s1 caps1 k else none) with
    | some r => some r
    | none => k s caps

/-- The leftmost-first (Perl-like) matching that package regexp implements,
as a backtracking search from the start of `s`: the first way to match that
the preference order reaches (greedy repetition, left alternative first) and
that lets the continuation `k` succeed. A capturing group records the text
between its two ends when it is left. -/
def backtrack : Regexp → List Char → Submatch → Cont → Option Thread
  | Regexp.charClass p, s, caps, k =>
    match s with
    | [] => none
    | c :: cs => if p c then k cs caps else none
  | Regexp.concat a b, s, caps, k => backtrack a s caps (fun s1 caps1 => backtrack b s1 caps1 k)
  | Regexp.alternate a b, s, caps, k =>
    match backtrack a s caps k with
    | some r => some r
    | none => backtrack b s caps k
  | Regexp.star a, s, caps, k => starLoop (backtrack a) s.length s caps k
  | Regexp.plus a, s, caps, k =>
    backtrack a s caps (fun s1 caps1 => starLoop (backtrack a) s1.length s1 caps1 k)
  | Regexp.capture i a, s, caps, k =>
    backtrack a s caps (fun s1 caps1 => k s1 (caps1.set i (s.take (s.length - s1.length))))

/-- `re.NumSubexp()`: the number of capturing groups. -/
def NumSubexp : Regexp → Nat
  | Regexp.charClass _ => 0
  | Regexp.concat a b => max (NumSubexp a) (NumSubexp b)
  | Regexp.alternate a b => max (NumSubexp a) (NumSubexp b)
  | Regexp.star a => NumSubexp a
  | Regexp.plus a => NumSubexp a
  | Regexp.capture i a => max i (NumSubexp a)

/-- The preferred match of `re` that starts at the first position of `s`,
with `match[0]` filled in. -/
def matchAt (re : Regexp) (s : List Char) : Option Thread :=
  backtrack re s (List.replicate (NumSubexp re + 1) [])
    (fun rest caps => some (caps.set 0 (s.take (s.length - rest.length)), rest))

/-- `re.doExecute` from position `pos`, where `s` is the input from `pos`
on: the leftmost match at or after `pos`, found by trying each start
position in turn. Returns the start position of the match, its strings and
the input after it. -/
def doExecute (re : Regexp) : List Char → Nat → Option (Nat × Thread)
  | [], pos =>
    match matchAt re [] with
    | some r => some (pos, r)
    | none => none
  | c :: cs, pos =>
    match matchAt re (c :: cs) with
    | some r => some (pos, r)
    | none => doExecute re cs (pos + 1)

/-- The loop of `(*Regexp).allMatches`: `s` is the input from `pos` on. The
loop ends when there is no further match. A match that ends at `pos` is
empty; it is dropped when it abuts the preceding match
(`matches[0] == prevMatchEnd`), and after it the scan moves forward by one
rune, or stops at the end of the input. After a non-empty match the scan
resumes at its end. -/
def allMatches (re : Regexp) : Nat → List Char → Nat → Int → List Submatch
  | 0, _, _, _ => []
  | fuel + 1, s, pos, prevMatchEnd =>
    match doExecute re s pos with
    | none => []
    | some (matchStart, m, rest) =>
      let matchEnd := matchStart + (m.getD 0 []).length
      if matchEnd = pos then
        let accepted := if (matchStart : Int) = prevMatchEnd then [] else [m]
        match s with
        | [] => accepted
        | _ :: s1 => accepted ++ allMatches re fuel s1 (pos + 1) matchEnd
      else
        m :: allMatches re fuel rest matchEnd matchEnd

/-- `re.FindAllStringSubmatch(s, -1)`. The scan position advances on every
round of the loop, so `length + 1` rounds reach the end of the input. -/
def FindAllStringSubmatch (re : Regexp) (s : List Char) : List Submatch :=
  allMatches re (s.length + 1) s 0 (-1)

end regexp

namespace shared

/-- The alternation `s|m|h|d|w`. -/
def unitAlt : regexp.Regexp :=
  regexp.Regexp.alternate (regexp.lit 's') (regexp.Regexp.alternate (regexp.lit 'm')
    (regexp.Regexp.alternate (regexp.lit 'h') (regexp.Regexp.alternate (regexp.lit 'd')
      (regexp.lit 'w'))))

/-- The body of the repeated group: `(\d+)(s|m|h|d|w)`, capturing groups 1
and 2. -/
def groupBody : regexp.Regexp :=
  regexp.Regexp.concat
    (regexp.Regexp.capture 1 (regexp.Regexp.plus (regexp.Regexp.charClass regexp.isDigit)))
    (regexp.Regexp.capture 2 unitAlt)

/-- `regex := regexp.MustCompile("(?:(\\d+)(s|m|h|d|w))*")`. -/
def regex : regexp.Regexp := regexp.Regexp.star groupBody

/-- The body of the loop of `GetExpiryDate` for one match: empty matches are
skipped; the unit letter selects the quantum (none of the cases applying
leaves `duration` at its zero value); the error of `Atoi` is discarded; the
product is an `int64` multiplication. -/
def expiryStep (expiryDate : time.Time) (m : List (List Char)) : time.Time :=
  if m.getD 0 [] = [] then expiryDate
  else
    let duration : time.Duration :=
      if m.getD 2 [] = ['s'] then time.Second
      else if m.getD 2 [] = ['m'] then time.Minute
      else if m.getD 2 [] = ['h'] then time.Hour
      else if m.getD 2 [] = ['d'] then 24 * time.Hour
      else if m.getD 2 [] = ['w'] then 7 * 24 * time.Hour
      else 0
    let value := (strconv.Atoi (m.getD 1 [])).1
    time.Time.Add expiryDate (strconv.wrapInt64 (value * duration))

/-- `GetExpiryDate` returns an expiry date based on the creationDate and
format. -/
def GetExpiryDate (creationDate : time.Time) (format : String) : time.Time :=
  (regexp.FindAllStringSubmatch regex format.data).foldl expiryStep creationDate

end shared

/-- A cleaned slash-separated path, as the list of its elements (the path
split at every slash). `ioutil.TempDir` returns `filepath.Join(dir, name)`,
which is cleaned, and the paths this file derives from it are cleaned too. -/
structure CleanPath where
  elems : List String
  deriving DecidableEq, Repr

/-- The string a path stands for. -/
def CleanPath.String (p : CleanPath) : String := "/".intercalate p.elems

namespace filepath

/-- `filepath.Join(dir, name)` for a cleaned `dir` and a single element `name`. -/
def Join (dir : CleanPath) (name : String) : CleanPath := ⟨dir.elems ++ [name]⟩

end filepath

namespace path

/-- `path.Dir(p)`: all but the last element of the path. -/
def Dir (p : CleanPath) : CleanPath := ⟨p.elems.dropLast⟩

end path

/-- The part of the world the keyring functions act on: the directories that
exist, and the commands run so far (name and arguments), oldest first. -/
structure World where
  dirs : List CleanPath
  log : List (String × List String)

/-- The outcome of each OS and subprocess call, which may depend on the
world at the time of the call. An error is represented by its message;
`none` is Go's `nil` error. -/
structure Env where
  /-- The outcome of ioutil.TempDir(os.TempDir(), "distrobuilder."): the new
  directory, or an error. -/
  TempDir : World → Except String CleanPath
  /-- The error of os.MkdirAll(dir, 0700). -/
  MkdirAll : World → CleanPath → Option String
  /-- The outcome of lxd.RunCommand(name, args...): the captured output, and an
  error when the command could not be run or exited with a non-zero code. -/
  RunCommand : World → String → List String → String × Option String

namespace ioutil

/-- `ioutil.TempDir`: on success the new directory exists. -/
def TempDir (env : Env) (w : World) : Except String CleanPath × World :=
  match env.TempDir w with
  | Except.error err => (Except.error err, w)
  | Except.ok dir => (Except.ok dir, { w with dirs := dir :: w.dirs })

end ioutil

namespace os

/-- `os.MkdirAll(dir, 0700)`: on success the directory exists; on failure
nothing changes. -/
def MkdirAll (env : Env) (dir : CleanPath) (w : World) : Option String × World :=
  match env.MkdirAll w dir with
  | some err => (some err, w)
  | none => (none, if dir ∈ w.dirs then w else { w with dirs := dir :: w.dirs })

/-- `os.RemoveAll(dir)`: removes the directory and everything below it. Its
result is ignored by every caller in this file. -/
def RemoveAll (dir : CleanPath) (w : World) : World :=
  { w with dirs := w.dirs.filter (fun p => ! dir.elems.isPrefixOf p.elems) }

end os

namespace lxd

/-- `lxd.RunCommand(name, args...)`: runs the command, which is recorded in
the log, and returns its output and error. -/
def RunCommand (env : Env) (name : String) (args : List String) (w : World) :
    (String × Option String) × World :=
  (env.RunCommand w name args, { w with log := w.log ++ [(name, args)] })

end lxd

namespace shared

/-- `CreateGPGKeyring` creates a new GPG keyring. Go's `(string, error)` is
an `Except`: the error message, or the path of the keyring. -/
def CreateGPGKeyring (env : Env) (keyserver : String) (keys : List String) (w : World) :
    Except String CleanPath × World :=
  match ioutil.TempDir env w with
  | (Except.error err, w) => (Except.error ("Failed to create gpg directory: " ++ err), w)
  | (Except.ok gpgDir, w) =>
    match os.MkdirAll env gpgDir w with
    | (some err, w) => (Except.error err, w)
    | (none, w) =>
      let args := ["--homedir", gpgDir.String]
      let args := if keyserver ≠ "" then args ++ ["--keyserver", keyserver] else args
      let args := args ++ ("--recv-keys" :: keys)
      match lxd.RunCommand env "gpg" args w with
      | ((out, some _), w) =>
        (Except.error ("Failed to create keyring: " ++ out), os.RemoveAll gpgDir w)
      | ((_, none), w) =>
        match lxd.RunCommand env "gpg" ["--homedir", gpgDir.String, "--export", "--output",
            (filepath.Join gpgDir "distrobuilder.gpg").String] w with
        | ((out, some _), w) =>
          (Except.error ("Failed to export keyring: " ++ out), os.RemoveAll gpgDir w)
        | ((_, none), w) => (Except.ok (filepath.Join gpgDir "distrobuilder.gpg"), w)

/-- `VerifyFile` verifies a file using gpg. Returns Go's `(bool, error)` and
the world after the call; the deferred `os.RemoveAll(gpgDir)` runs once the
result has been computed. -/
def VerifyFile (env : Env) (signedFile signatureFile : String) (keys : List String)
    (keyserver : String) (w : World) : (Bool × Option String) × World :=
  match CreateGPGKeyring env keyserver keys w with
  | (Except.error err, w) => ((false, some err), w)
  | (Except.ok keyring, w) =>
    let gpgDir := path.Dir keyring
    let r : (Bool × Option String) × World :=
      if signatureFile ≠ "" then
        match lxd.RunCommand env "gpg" ["--homedir", gpgDir.String, "--keyring", keyring.String,
            "--verify", signatureFile, signedFile] w with
        | ((out, some _), w) => ((false, some ("Failed to verify: " ++ out)), w)
        | ((_, none), w) => ((true, none), w)
      else
        match lxd.RunCommand env "gpg" ["--homedir", gpgDir.String, "--keyring", keyring.String,
            "--verify", signedFile] w with
        | ((out, some _), w) => ((false, some ("Failed to verify: " ++ out)), w)
        | ((_, none), w) => ((true, none), w)
    (r.1, os.RemoveAll gpgDir r.2)

end shared

/-! ## Vocabulary of the statements -/

/-- The number a string of decimal digits denotes (leading zeros allowed). -/
def decimalValue (ds : List Char) : Nat :=
  ds.foldl (fun a c => a * 10 + (c.toNat - '0'.toNat)) 0

/-- The quantum of a unit letter, in nanoseconds: s = 1 second, m = 1 minute,
h = 1 hour, d = 24 hours, w = 7 days. -/
def quantum (u : Char) : Int :=
  if u = 's' then 1000000000
  else if u = 'm' then 60 * 1000000000
  else if u = 'h' then 3600 * 1000000000
  else if u = 'd' then 24 * (3600 * 1000000000)
  else if u = 'w' then 7 * (24 * (3600 * 1000000000))
  else 0

/-- A token of the duration grammar: its digits and its unit letter. -/
abbrev Token := List Char × Char

/-- A token is well formed when it has at least one digit, only ASCII decimal
digits, and a unit letter among s, m, h, d, w. -/
def Token.valid (t : Token) : Prop :=
  t.1 ≠ [] ∧ (∀ c ∈ t.1, '0' ≤ c ∧ c ≤ '9') ∧
    (t.2 = 's' ∨ t.2 = 'm' ∨ t.2 = 'h' ∨ t.2 = 'd' ∨ t.2 = 'w')

instance Token.decidableValid (t : Token) : Decidable t.valid := by
  unfold Token.valid
  infer_instance

/-- The text of a token: the digits followed by the unit letter. -/
def Token.text (t : Token) : List Char := t.1 ++ [t.2]

/-- The concatenation of the texts of a list of tokens. -/
def concatTokens : List Token → List Char
  | [] => []
  | t :: ts => t.text ++ concatTokens ts

/-- The duration a token denotes: its value times the quantum of its unit. -/
def Token.duration (t : Token) : Int := (decimalValue t.1 : Int) * quantum t.2

/-- The letters of the alternation `s|m|h|d|w`. -/
def regexp.isUnit (c : Char) : Bool :=
  c == 's' || c == 'm' || c == 'h' || c == 'd' || c == 'w'

/-- What one iteration of the group body `(\d+)(s|m|h|d|w)` matches at the
start of the input, in closed form: the whole leading run of digits, then a
unit letter. Returns capture 1, capture 2 and the remaining input. -/
def regexp.matchGroup (s : List Char) : Option (List Char × List Char × List Char) :=
  match s.span regexp.isDigit with
  | ([], _) => none
  | (_, []) => none
  | (ds, u :: rest) => if regexp.isUnit u then some (ds, [u], rest) else none

/-- What the star over the group body matches, in closed form: it iterates
`matchGroup` as long as it succeeds; `whole` is the text matched so far and
`g1`, `g2` the captures, which each iteration overwrites. -/
def regexp.matchStar : Nat → List Char → List Char → List Char → List Char →
    List (List Char) × List Char
  | 0, s, whole, g1, g2 => ([whole, g1, g2], s)
  | fuel + 1, s, whole, g1, g2 =>
    match regexp.matchGroup s with
    | none => ([whole, g1, g2], s)
    | some (ds, u, rest) => regexp.matchStar fuel rest (whole ++ ds ++ u) ds u

/-- The closed form of the match of the pattern at the start of `s`. -/
def regexp.execute (s : List Char) : List (List Char) × List Char :=
  regexp.matchStar s.length s [] [] []

/-- The accumulator of the digit loops, as a natural number. -/
def strconv.digitsFrom (n : Nat) (ds : List Char) : Nat :=
  ds.foldl (fun a c => a * 10 + (c.toNat - '0'.toNat)) n

/-- A string contains a token when some substring of it consists of one or
more ASCII digits immediately followed by one of the letters s, m, h, d, w. -/
def containsToken (s : List Char) : Prop :=
  ∃ (pre ds : List Char) (u : Char) (post : List Char),
    s = pre ++ ds ++ u :: post ∧ ds ≠ [] ∧ (∀ c ∈ ds, '0' ≤ c ∧ c ≤ '9') ∧
      (u = 's' ∨ u = 'm' ∨ u = 'h' ∨ u = 'd' ∨ u = 'w')

/-- The captures after a run of tokens: those of its last token, or the ones
held before when the run is empty. -/
def regexp.lastCaptures (toks : List Token) (g1 g2 : List Char) : List Char × List Char :=
  toks.foldl (fun _ t => (t.1, [t.2])) (g1, g2)

/-- The arguments of the verification call of `VerifyFile` for a keyring:
detached mode when a signature file is given, inline mode otherwise. -/
def verifyArgs (keyring : CleanPath) (signatureFile signedFile : String) : List String :=
  if signatureFile ≠ "" then
    ["--homedir", (path.Dir keyring).String, "--keyring", keyring.String, "--verify",
      signatureFile, signedFile]
  else
    ["--homedir", (path.Dir keyring).String, "--keyring", keyring.String, "--verify", signedFile]

/-- The world before a run: no directory of interest exists, nothing was run. -/
def emptyWorld : World := ⟨[], []⟩

/-- A run in which every call succeeds. -/
def allSucceed : Env where
  TempDir := fun _ => Except.ok ⟨["", "tmp", "distrobuilder.123"]⟩
  MkdirAll := fun _ _ => none
  RunCommand := fun _ _ _ => ("", none)

/-- A run in which the temporary directory is created and `os.MkdirAll` on it
then fails; every gpg call would succeed. -/
def mkdirFails : Env where
  TempDir := fun _ => Except.ok ⟨["", "tmp", "distrobuilder.123"]⟩
  MkdirAll := fun _ _ => some "mkdir /tmp/distrobuilder.123: permission denied"
  RunCommand := fun _ _ _ => ("", none)

/-- A run in which every call succeeds except gpg --verify, which prints a
diagnostic and exits with a non-zero code. -/
def verifyFails : Env where
  TempDir := fun _ => Except.ok ⟨["", "tmp", "distrobuilder.123"]⟩
  MkdirAll := fun _ _ => none
  RunCommand := fun _ _ args =>
    if "--verify" ∈ args then ("gpg: BAD signature", some "exit status 1") else ("", none)

/-- The world after a successful keyring creation in the runs above with the
key "0x1234" and no keyserver. -/
def keyringWorld : World :=
  ⟨[⟨["", "tmp", "distrobuilder.123"]⟩],
    [("gpg", ["--homedir", "/tmp/distrobuilder.123", "--recv-keys", "0x1234"]),
      ("gpg", ["--homedir", "/tmp/distrobuilder.123", "--export", "--output",
        "/tmp/distrobuilder.123/distrobuilder.gpg"])]⟩

/-! ## strconv.Atoi on strings of digits -/

namespace strconv

theorem digitsFrom_cons (n : Nat) (c : Char) (cs : List Char) :
    digitsFrom n (c :: cs) = digitsFrom (n * 10 + (c.toNat - '0'.toNat)) cs := rfl

theorem le_digitsFrom (ds : List Char) : ∀ n, n ≤ digitsFrom n ds := by
  induction ds with
  | nil => intro n; exact Nat.le_refl n
  | cons c cs ih =>
    intro n
    rw [digitsFrom_cons]
    have h := ih (n * 10 + (c.toNat - '0'.toNat))
    omega

theorem wrapInt64_of_lt (x : Int) (h0 : 0 ≤ x) (h1 : x < 2 ^ 63) : wrapInt64 x = x := by
  unfold wrapInt64
  have e : (x + 2 ^ 63) % 2 ^ 64 = x + 2 ^ 63 :=
    Int.emod_eq_of_lt (by omega) (by omega)
  rw [e]
  omega

theorem AtoiFastLoop_digits (ds : List Char) :
    ∀ n : Nat, (∀ c ∈ ds, '0' ≤ c ∧ c ≤ '9') → digitsFrom n ds < 2 ^ 63 →
      AtoiFastLoop ds (n : Int) = some (digitsFrom n ds : Int) := by
  induction ds with
  | nil => intro n _ _; rfl
  | cons c cs ih =>
    intro n hd hlt
    have hc : '0' ≤ c ∧ c ≤ '9' := hd c (List.mem_cons_self c cs)
    rw [digitsFrom_cons] at hlt ⊢
    have hle := le_digitsFrom cs (n * 10 + (c.toNat - '0'.toNat))
    have hw : wrapInt64 ((n : Int) * 10 + ((c.toNat - '0'.toNat : Nat) : Int))
        = ((n * 10 + (c.toNat - '0'.toNat) : Nat) : Int) := by
      rw [wrapInt64_of_lt]
      · push_cast; ring
      · positivity
      · have : ((n * 10 + (c.toNat - '0'.toNat) : Nat) : Int) < 2 ^ 63 := by
          have h2 : n * 10 + (c.toNat - '0'.toNat) < 2 ^ 63 := by omega
          exact_mod_cast h2
        push_cast at this ⊢
        linarith
    simp only [AtoiFastLoop, hc, and_self, if_true]
    rw [hw]
    exact ih _ (fun x hx => hd x (List.mem_cons_of_mem c hx)) hlt

theorem ParseUintLoop_digits (ds : List Char) :
    ∀ n : Nat, (∀ c ∈ ds, '0' ≤ c ∧ c ≤ '9') → digitsFrom n ds < 2 ^ 64 →
      ParseUintLoop ds n = (digitsFrom n ds, none) := by
  induction ds with
  | nil => intro n _ _; rfl
  | cons c cs ih =>
    intro n hd hlt
    have hc : '0' ≤ c ∧ c ≤ '9' := hd c (List.mem_cons_self c cs)
    rw [digitsFrom_cons] at hlt ⊢
    have hle := le_digitsFrom cs (n * 10 + (c.toNat - '0'.toNat))
    have h2 : n * 10 + (c.toNat - '0'.toNat) < 2 ^ 64 := by omega
    have h3 : ¬ (n ≥ maxUint64 / 10 + 1) := by
      unfold maxUint64
      norm_num at h2 ⊢
      omega
    have e1 : (n * 10) % 2 ^ 64 = n * 10 := Nat.mod_eq_of_lt (by omega)
    have e2 : (n * 10 + (c.toNat - '0'.toNat)) % 2 ^ 64 = n * 10 + (c.toNat - '0'.toNat) :=
      Nat.mod_eq_of_lt h2
    have h4 : ¬ (n * 10 + (c.toNat - '0'.toNat) < n * 10 ∨
        n * 10 + (c.toNat - '0'.toNat) > maxUint64) := by
      unfold maxUint64
      norm_num at h2 ⊢
      omega
    simp only [ParseUintLoop, hc, and_self, if_true, h3, if_false, e1, e2, h4]
    exact ih _ (fun x hx => hd x (List.mem_cons_of_mem c hx)) hlt

theorem not_sign_of_digit (c : Char) (h : '0' ≤ c ∧ c ≤ '9') :
    (c == '-') = false ∧ (c == '+') = false := by
  constructor
  · rw [beq_eq_false_iff_ne]
    rintro rfl
    exact absurd h.1 (by decide)
  · rw [beq_eq_false_iff_ne]
    rintro rfl
    exact absurd h.1 (by decide)

/-- On a non-empty string of digits whose value fits in an `int`, `Atoi`
returns that value and no error, whichever path it takes. -/
theorem Atoi_digits (ds : List Char) (hne : ds ≠ []) (hd : ∀ c ∈ ds, '0' ≤ c ∧ c ≤ '9')
    (hlt : decimalValue ds < 2 ^ 63) : Atoi ds = ((decimalValue ds : Int), none) := by
  have hv : decimalValue ds = digitsFrom 0 ds := rfl
  rw [hv] at hlt ⊢
  cases ds with
  | nil => exact absurd rfl hne
  | cons c cs =>
    have hc : '0' ≤ c ∧ c ≤ '9' := hd c (List.mem_cons_self c cs)
    obtain ⟨hm, hp⟩ := not_sign_of_digit c hc
    unfold Atoi
    by_cases hlen : 0 < (c :: cs).length ∧ (c :: cs).length < 19
    · rw [if_pos hlen]
      have hfast := AtoiFastLoop_digits (c :: cs) 0 hd hlt
      simp only [Nat.cast_zero] at hfast
      simp [hm, hp, hfast]
    · rw [if_neg hlen]
      have hslow := ParseUintLoop_digits (c :: cs) 0 hd (by omega)
      simp [ParseInt, ParseUint, hm, hp, hslow]
      omega

end strconv

/-! ## The matches of the pattern -/

namespace regexp

theorem isDigit_iff (c : Char) : isDigit c = true ↔ ('0' ≤ c ∧ c ≤ '9') := by
  simp [isDigit]

theorem isUnit_iff (c : Char) :
    isUnit c = true ↔ (c = 's' ∨ c = 'm' ∨ c = 'h' ∨ c = 'd' ∨ c = 'w') := by
  simp [isUnit, or_assoc]

theorem unit_not_digit (u : Char) (h : u = 's' ∨ u = 'm' ∨ u = 'h' ∨ u = 'd' ∨ u = 'w') :
    isDigit u = false := by
  rcases h with rfl | rfl | rfl | rfl | rfl <;> decide

theorem span_digits (ds : List Char) (u : Char) (rest : List Char)
    (hd : ∀ c ∈ ds, '0' ≤ c ∧ c ≤ '9') (hu : isDigit u = false) :
    (ds ++ u :: rest).span isDigit = (ds, u :: rest) := by
  have hp : ∀ c ∈ ds, isDigit c = true := fun c hc => (isDigit_iff c).mpr (hd c hc)
  rw [List.span_eq_take_drop, List.takeWhile_append_of_pos hp, List.dropWhile_append_of_pos hp]
  simp [List.takeWhile_cons, List.dropWhile_cons, hu]

/-- A well-formed token at the start of the input is one iteration of the
group body. -/
theorem matchGroup_token (t : Token) (ht : t.valid) (rest : List Char) :
    matchGroup (t.text ++ rest) = some (t.1, [t.2], rest) := by
  obtain ⟨ds, u⟩ := t
  obtain ⟨hne, hd, hu⟩ := ht
  simp only at hne hd hu
  have hs := span_digits ds u rest hd (unit_not_digit u hu)
  have hu2 : isUnit u = true := (isUnit_iff u).mpr hu
  cases ds with
  | nil => exact absurd rfl hne
  | cons d ds =>
    simp only [Token.text, List.append_assoc, List.singleton_append]
    unfold matchGroup
    rw [hs]
    simp [hu2]

/-- What an iteration of the group body matched: a non-empty run of digits
and a unit letter, at the start of the input. -/
theorem matchGroup_some (s g1 g2 rest : List Char) (h : matchGroup s = some (g1, g2, rest)) :
    g1 ≠ [] ∧ (∀ c ∈ g1, '0' ≤ c ∧ c ≤ '9') ∧
      ∃ u, (u = 's' ∨ u = 'm' ∨ u = 'h' ∨ u = 'd' ∨ u = 'w') ∧ g2 = [u] ∧
        s = g1 ++ u :: rest := by
  unfold matchGroup at h
  rw [List.span_eq_take_drop] at h
  have happ : s.takeWhile isDigit ++ s.dropWhile isDigit = s := List.takeWhile_append_dropWhile _ _
  have hall : ∀ c ∈ s.takeWhile isDigit, isDigit c = true := fun c hc => List.mem_takeWhile_imp hc
  generalize s.takeWhile isDigit = a at h happ hall
  generalize s.dropWhile isDigit = b at h happ
  cases a with
  | nil => simp at h
  | cons d ds =>
    cases b with
    | nil => simp at h
    | cons u r =>
      by_cases hu : isUnit u = true
      · simp only [hu, if_true, Option.some.injEq, Prod.mk.injEq] at h
        obtain ⟨h1, h2, h3⟩ := h
        subst h1 h2 h3
        exact ⟨by simp, fun c hc => (isDigit_iff c).mp (hall c hc), u, (isUnit_iff u).mp hu, rfl,
          happ.symm⟩
      · simp [hu] at h

theorem length_le_concatTokens (toks : List Token) :
    toks.length ≤ (concatTokens toks).length := by
  induction toks with
  | nil => simp [concatTokens]
  | cons t ts ih =>
    simp only [concatTokens, Token.text, List.length_append, List.length_cons, List.length_nil]
    omega

/-- The star matches a whole run of well-formed tokens, and its captures hold
the last token of the run. -/
theorem matchStar_run (toks : List Token) :
    ∀ (fuel : Nat) (rest whole g1 g2 : List Char), (∀ t ∈ toks, t.valid) →
      toks.length ≤ fuel → matchGroup rest = none →
      matchStar fuel (concatTokens toks ++ rest) whole g1 g2 =
        ([whole ++ concatTokens toks, (lastCaptures toks g1 g2).1,
          (lastCaptures toks g1 g2).2], rest) := by
  induction toks with
  | nil =>
    intro fuel rest whole g1 g2 _ _ hrest
    cases fuel with
    | zero => simp [matchStar, concatTokens, lastCaptures]
    | succ f => simp [matchStar, concatTokens, lastCaptures, hrest]
  | cons t ts ih =>
    intro fuel rest whole g1 g2 hv hfuel hrest
    cases fuel with
    | zero => simp at hfuel
    | succ f =>
      have ht : t.valid := hv t (List.mem_cons_self t ts)
      have hg := matchGroup_token t ht (concatTokens ts ++ rest)
      simp only [concatTokens, List.append_assoc] at hg ⊢
      simp only [matchStar, hg]
      rw [ih f rest _ t.1 [t.2] (fun x hx => hv x (List.mem_cons_of_mem t hx))
        (by simpa using hfuel) hrest]
      simp [lastCaptures, Token.text]

theorem matchGroup_rest_lt (s g1 g2 rest : List Char) (h : matchGroup s = some (g1, g2, rest)) :
    rest.length < s.length := by
  obtain ⟨_, _, u, _, _, hs⟩ := matchGroup_some s g1 g2 rest h
  rw [hs]
  simp only [List.length_append, List.length_cons]
  omega

theorem matchGroup_nil : matchGroup [] = none := rfl

/-- With at least as much fuel as input left, the star does not depend on
the fuel. -/
theorem matchStar_fuel (f1 : Nat) :
    ∀ (f2 : Nat) (s whole g1 g2 : List Char), s.length ≤ f1 → s.length ≤ f2 →
      matchStar f1 s whole g1 g2 = matchStar f2 s whole g1 g2 := by
  induction f1 with
  | zero =>
    intro f2 s whole g1 g2 h1 _
    have hs : s = [] := List.length_eq_zero.mp (Nat.le_zero.mp h1)
    subst hs
    cases f2 <;> simp [matchStar, matchGroup_nil]
  | succ f ih =>
    intro f2 s whole g1 g2 h1 h2
    cases f2 with
    | zero =>
      have hs : s = [] := List.length_eq_zero.mp (Nat.le_zero.mp h2)
      subst hs
      simp [matchStar, matchGroup_nil]
    | succ f3 =>
      simp only [matchStar]
      cases hm : matchGroup s with
      | none => rfl
      | some r =>
        obtain ⟨a, b, rest⟩ := r
        have hlt := matchGroup_rest_lt s a b rest hm
        exact ih f3 rest _ a b (by omega) (by omega)

/-- The star splits its input into the text it matched and the rest. -/
theorem matchStar_split (fuel : Nat) :
    ∀ (s whole g1 g2 : List Char),
      whole ++ s = (matchStar fuel s whole g1 g2).1.getD 0 [] ++ (matchStar fuel s whole g1 g2).2 := by
  induction fuel with
  | zero => intro s whole g1 g2; simp [matchStar]
  | succ f ih =>
    intro s whole g1 g2
    simp only [matchStar]
    cases hm : matchGroup s with
    | none => simp
    | some r =>
      obtain ⟨a, b, rest⟩ := r
      obtain ⟨_, _, u, _, hb, hs⟩ := matchGroup_some s a b rest hm
      simp only
      rw [← ih rest (whole ++ a ++ b) a b, hs, hb]
      simp

theorem execute_split (s : List Char) : s = (execute s).1.getD 0 [] ++ (execute s).2 := by
  have h := matchStar_split s.length s [] [] []
  simpa [execute] using h

/-! ## The backtracking matcher on the pattern -/

theorem backtrack_lit (c : Char) (s : List Char) (caps : Submatch) (k : Cont) :
    backtrack (lit c) s caps k =
      match s with
      | [] => none
      | x :: cs => if x = c then k cs caps else none := by
  cases s with
  | nil => rfl
  | cons x cs => simp [lit, backtrack]

theorem backtrack_unitAlt (s : List Char) (caps : Submatch) (k : Cont) :
    backtrack shared.unitAlt s caps k =
      match s with
      | [] => none
      | u :: rest => if isUnit u then k rest caps else none := by
  cases s with
  | nil => rfl
  | cons u rest =>
    simp only [shared.unitAlt, backtrack, backtrack_lit, isUnit]
    by_cases h1 : u = 's'
    · subst h1; cases k rest caps <;> simp
    by_cases h2 : u = 'm'
    · subst h2; cases k rest caps <;> simp
    by_cases h3 : u = 'h'
    · subst h3; cases k rest caps <;> simp
    by_cases h4 : u = 'd'
    · subst h4; cases k rest caps <;> simp
    by_cases h5 : u = 'w'
    · subst h5; cases k rest caps <;> simp
    simp [h1, h2, h3, h4, h5]

theorem backtrack_charClass_nil (p : Char → Bool) (caps : Submatch) (k : Cont) :
    backtrack (Regexp.charClass p) [] caps k = none := rfl

theorem backtrack_charClass_cons (p : Char → Bool) (c : Char) (cs : List Char) (caps : Submatch)
    (k : Cont) : backtrack (Regexp.charClass p) (c :: cs) caps k = if p c then k cs caps else none :=
  rfl

theorem starLoop_digits (ds : List Char) :
    ∀ (fuel : Nat) (rest : List Char) (caps : Submatch) (k : Cont),
      (∀ c ∈ ds, isDigit c = true) → (∀ c ∈ rest.head?, isDigit c = false) →
      ds.length ≤ fuel → (∀ c s1 caps1, isDigit c = true → k (c :: s1) caps1 = none) →
      starLoop (backtrack (Regexp.charClass isDigit)) fuel (ds ++ rest) caps k = k rest caps := by
  induction ds with
  | nil =>
    intro fuel rest caps k _ hrest _ _
    cases fuel with
    | zero => rfl
    | succ f =>
      cases rest with
      | nil => simp [starLoop, backtrack_charClass_nil]
      | cons c r =>
        have hc : isDigit c = false := hrest c (by simp)
        simp [starLoop, backtrack_charClass_cons, hc]
  | cons d ds ih =>
    intro fuel rest caps k hd hrest hfuel hk
    cases fuel with
    | zero => simp at hfuel
    | succ f =>
      have hdig : isDigit d = true := hd d (List.mem_cons_self d ds)
      have hrec := ih f rest caps k (fun c hc => hd c (List.mem_cons_of_mem d hc)) hrest
        (by simpa using hfuel) hk
      rw [List.cons_append, starLoop, backtrack_charClass_cons, if_pos hdig]
      simp only [List.length_cons, Nat.lt_succ_self, if_true]
      rw [hrec]
      cases hres : k rest caps with
      | some r => rfl
      | none => exact hk d _ caps hdig

theorem backtrack_concat (a b : Regexp) (s : List Char) (caps : Submatch) (k : Cont) :
    backtrack (Regexp.concat a b) s caps k =
      backtrack a s caps (fun s1 caps1 => backtrack b s1 caps1 k) := rfl

theorem backtrack_plus (a : Regexp) (s : List Char) (caps : Submatch) (k : Cont) :
    backtrack (Regexp.plus a) s caps k =
      backtrack a s caps (fun s1 caps1 => starLoop (backtrack a) s1.length s1 caps1 k) := rfl

theorem backtrack_star (a : Regexp) (s : List Char) (caps : Submatch) (k : Cont) :
    backtrack (Regexp.star a) s caps k = starLoop (backtrack a) s.length s caps k := rfl

theorem backtrack_capture (i : Nat) (a : Regexp) (s : List Char) (caps : Submatch) (k : Cont) :
    backtrack (Regexp.capture i a) s caps k =
      backtrack a s caps (fun s1 caps1 => k s1 (caps1.set i (s.take (s.length - s1.length)))) :=
  rfl

theorem digit_not_unit (c : Char) (hc : isDigit c = true) : isUnit c = false := by
  cases hcu : isUnit c with
  | false => rfl
  | true =>
    have h2 : c = 's' ∨ c = 'm' ∨ c = 'h' ∨ c = 'd' ∨ c = 'w' := by
      simpa [isUnit, or_assoc] using hcu
    rcases h2 with rfl | rfl | rfl | rfl | rfl <;> exact absurd hc (by decide)

theorem backtrack_groupBody_nodigit (s : List Char) (caps : Submatch) (k : Cont)
    (hs : ∀ c ∈ s.head?, isDigit c = false) : backtrack shared.groupBody s caps k = none := by
  rw [shared.groupBody, backtrack_concat, backtrack_capture, backtrack_plus]
  cases s with
  | nil => rfl
  | cons c r =>
    have hc : isDigit c = false := hs c (by simp)
    rw [backtrack_charClass_cons]
    simp [hc]

theorem backtrack_groupBody_digits (d : Char) (ds rest : List Char) (caps : Submatch) (k : Cont)
    (hd : ∀ c ∈ d :: ds, isDigit c = true) (hrest : ∀ c ∈ rest.head?, isDigit c = false) :
    backtrack shared.groupBody (d :: ds ++ rest) caps k =
      match rest with
      | [] => none
      | u :: r => if isUnit u then k r ((caps.set 1 (d :: ds)).set 2 [u]) else none := by
  have hdig : isDigit d = true := hd d (List.mem_cons_self d ds)
  rw [shared.groupBody, backtrack_concat, backtrack_capture, backtrack_plus, List.cons_append,
    backtrack_charClass_cons, if_pos hdig]
  rw [starLoop_digits ds _ rest caps _ (fun c hc => hd c (List.mem_cons_of_mem d hc)) hrest
    (by simp)]
  · rw [backtrack_capture, backtrack_unitAlt]
    cases rest with
    | nil => rfl
    | cons u r =>
      simp only
      by_cases hu : isUnit u = true
      · have e : ds.length + (r.length + 1) - r.length = ds.length + 1 := by omega
        simp [hu, e]
      · simp [hu]
  · intro c s1 caps1 hc
    rw [backtrack_capture, backtrack_unitAlt]
    simp [digit_not_unit c hc]

theorem head_dropWhile (p : Char → Bool) (s : List Char) :
    ∀ c ∈ (s.dropWhile p).head?, p c = false := by
  induction s with
  | nil => simp
  | cons x xs ih =>
    by_cases hx : p x = true
    · simpa [List.dropWhile_cons, hx] using ih
    · simp [List.dropWhile_cons, hx]

/-- One iteration of the group body, run by the backtracking matcher, is
`matchGroup`: whatever the continuation does with the match. -/
theorem backtrack_groupBody (s : List Char) (caps : Submatch) (k : Cont) :
    backtrack shared.groupBody s caps k =
      match matchGroup s with
      | none => none
      | some (g1, g2, rest) => k rest ((caps.set 1 g1).set 2 g2) := by
  have happ : s.takeWhile isDigit ++ s.dropWhile isDigit = s := List.takeWhile_append_dropWhile _ _
  have hall : ∀ c ∈ s.takeWhile isDigit, isDigit c = true := fun c hc => List.mem_takeWhile_imp hc
  have hhead := head_dropWhile isDigit s
  unfold matchGroup
  rw [List.span_eq_take_drop]
  generalize s.takeWhile isDigit = a at happ hall
  generalize s.dropWhile isDigit = b at happ hhead
  subst happ
  cases a with
  | nil => simpa using backtrack_groupBody_nodigit b caps k hhead
  | cons d ds =>
    rw [backtrack_groupBody_digits d ds b caps k hall hhead]
    cases b with
    | nil => rfl
    | cons u r =>
      by_cases hu : isUnit u = true
      · simp [hu]
      · simp [hu]

/-- The star over the group body, run by the backtracking matcher with a
continuation that accepts, is `matchStar`. -/
theorem starLoop_groupBody (fuel : Nat) :
    ∀ (s c0 g1 g2 whole : List Char) (k : Cont), (∀ s1 caps1, (k s1 caps1).isSome = true) →
      starLoop (backtrack shared.groupBody) fuel s [c0, g1, g2] k =
        k (matchStar fuel s whole g1 g2).2
          [c0, (matchStar fuel s whole g1 g2).1.getD 1 [], (matchStar fuel s whole g1 g2).1.getD 2 []] := by
  induction fuel with
  | zero => intro s c0 g1 g2 whole k _; rfl
  | succ f ih =>
    intro s c0 g1 g2 whole k hk
    rw [starLoop, backtrack_groupBody, matchStar]
    cases hm : matchGroup s with
    | none => rfl
    | some r =>
      obtain ⟨a, b, rest⟩ := r
      have hlt := matchGroup_rest_lt s a b rest hm
      simp only [hlt, if_true, List.set_cons_succ, List.set_cons_zero]
      rw [ih rest c0 a b (whole ++ a ++ b) k hk]
      have h := hk (matchStar f rest (whole ++ a ++ b) a b).2
        [c0, (matchStar f rest (whole ++ a ++ b) a b).1.getD 1 [],
          (matchStar f rest (whole ++ a ++ b) a b).1.getD 2 []]
      cases hres : k (matchStar f rest (whole ++ a ++ b) a b).2
        [c0, (matchStar f rest (whole ++ a ++ b) a b).1.getD 1 [],
          (matchStar f rest (whole ++ a ++ b) a b).1.getD 2 []] with
      | some x => rfl
      | none => rw [hres] at h; simp at h

theorem matchStar_form (fuel : Nat) :
    ∀ (s whole g1 g2 : List Char), ∃ w a b, (matchStar fuel s whole g1 g2).1 = [w, a, b] := by
  induction fuel with
  | zero => intro s whole g1 g2; exact ⟨whole, g1, g2, rfl⟩
  | succ f ih =>
    intro s whole g1 g2
    rw [matchStar]
    cases hm : matchGroup s with
    | none => exact ⟨whole, g1, g2, rfl⟩
    | some r =>
      obtain ⟨a, b, rest⟩ := r
      exact ih rest _ a b

theorem matchAt_regex (s : List Char) : matchAt shared.regex s = some (execute s) := by
  have hsplit := matchStar_split s.length s [] [] []
  obtain ⟨w, a, b, hform⟩ := matchStar_form s.length s [] [] []
  have hn : List.replicate (NumSubexp shared.regex + 1) ([] : List Char) = [[], [], []] := by
    decide
  have hstar := starLoop_groupBody s.length s [] [] [] []
    (fun rest caps => some (caps.set 0 (s.take (s.length - rest.length)), rest)) (fun _ _ => rfl)
  unfold matchAt
  rw [hn, shared.regex, backtrack_star, hstar]
  unfold execute
  generalize matchStar s.length s [] [] [] = r at hsplit hform
  obtain ⟨m, rest⟩ := r
  simp only at hform hsplit
  subst hform
  simp only [List.getD_cons_zero, List.nil_append] at hsplit
  subst hsplit
  simp

theorem doExecute_regex (s : List Char) (pos : Nat) :
    doExecute shared.regex s pos = some (pos, execute s) := by
  cases s with
  | nil => rw [doExecute, matchAt_regex]
  | cons c cs => rw [doExecute, matchAt_regex]

/-- One round of the scan with the pattern, in terms of the closed form of
its match. -/
theorem allMatches_regex_succ (fuel : Nat) (s : List Char) (pos : Nat) (prevMatchEnd : Int) :
    allMatches shared.regex (fuel + 1) s pos prevMatchEnd =
      if pos + ((execute s).1.getD 0 []).length = pos then
        match s with
        | [] => if (pos : Int) = prevMatchEnd then [] else [(execute s).1]
        | _ :: s1 =>
          (if (pos : Int) = prevMatchEnd then [] else [(execute s).1]) ++
            allMatches shared.regex fuel s1 (pos + 1) ((pos + ((execute s).1.getD 0 []).length : Nat) : Int)
      else
        (execute s).1 :: allMatches shared.regex fuel (execute s).2
          (pos + ((execute s).1.getD 0 []).length)
          ((pos + ((execute s).1.getD 0 []).length : Nat) : Int) := by
  rw [allMatches, doExecute_regex]

theorem execute_nil : execute [] = ([[], [], []], []) := rfl

/-- A string that is a run of one or more well-formed tokens yields exactly
one match: the whole string, with the captures of the last token. -/
theorem FindAllStringSubmatch_run (toks : List Token) (hne : toks ≠ [])
    (hv : ∀ t ∈ toks, t.valid) :
    FindAllStringSubmatch shared.regex (concatTokens toks) =
      [[concatTokens toks, (lastCaptures toks [] []).1, (lastCaptures toks [] []).2]] := by
  have hlen : 0 < (concatTokens toks).length := by
    have := length_le_concatTokens toks
    have : 0 < toks.length := List.length_pos.mpr hne
    omega
  have hex : execute (concatTokens toks) =
      ([concatTokens toks, (lastCaptures toks [] []).1, (lastCaptures toks [] []).2], []) := by
    have h := matchStar_run toks (concatTokens toks).length [] [] [] [] hv
      (length_le_concatTokens toks) rfl
    simpa [execute] using h
  obtain ⟨f, hf⟩ : ∃ f, (concatTokens toks).length = f + 1 := ⟨_, (Nat.succ_pred_eq_of_pos hlen).symm⟩
  have hpos : ¬ (0 + (concatTokens toks).length = 0) := by omega
  unfold FindAllStringSubmatch
  rw [allMatches_regex_succ]
  simp only [hex, List.getD_cons_zero, hpos, if_false]
  rw [hf, allMatches_regex_succ]
  simp [execute_nil]

end regexp

namespace shared

theorem quantum_pos (u : Char) (hu : u = 's' ∨ u = 'm' ∨ u = 'h' ∨ u = 'd' ∨ u = 'w') :
    1 ≤ quantum u := by
  rcases hu with rfl | rfl | rfl | rfl | rfl <;> decide

/-- The quantum the switch of `GetExpiryDate` selects for a unit letter. -/
theorem switch_quantum (u : Char) (hu : u = 's' ∨ u = 'm' ∨ u = 'h' ∨ u = 'd' ∨ u = 'w') :
    (if [u] = ['s'] then time.Second
      else if [u] = ['m'] then time.Minute
      else if [u] = ['h'] then time.Hour
      else if [u] = ['d'] then 24 * time.Hour
      else if [u] = ['w'] then 7 * 24 * time.Hour
      else (0 : time.Duration)) = quantum u := by
  rcases hu with rfl | rfl | rfl | rfl | rfl <;> decide

/-- One round of the loop on a non-empty match whose captures are a
well-formed token adds the duration of that token. -/
theorem expiryStep_token (t : time.Time) (whole : List Char) (tok : Token) (hw : whole ≠ [])
    (hv : tok.valid) (hfit : tok.duration ≤ 2 ^ 63 - 1) :
    expiryStep t [whole, tok.1, [tok.2]] = t + tok.duration := by
  obtain ⟨ds, u⟩ := tok
  obtain ⟨hne, hd, hu⟩ := hv
  simp only [Token.duration] at hne hd hu hfit ⊢
  have hq := quantum_pos u hu
  have hval : (decimalValue ds : Int) < 2 ^ 63 := by
    have h0 : (0 : Int) ≤ decimalValue ds := Int.natCast_nonneg _
    nlinarith
  have hval2 : decimalValue ds < 2 ^ 63 := by exact_mod_cast hval
  have hatoi := strconv.Atoi_digits ds hne hd hval2
  have hprod : strconv.wrapInt64 ((decimalValue ds : Int) * quantum u)
      = (decimalValue ds : Int) * quantum u := by
    apply strconv.wrapInt64_of_lt
    · have h0 : (0 : Int) ≤ decimalValue ds := Int.natCast_nonneg _
      positivity
    · omega
  unfold expiryStep
  simp only [List.getD_cons_zero, List.getD_cons_succ, hw, if_false, hatoi, switch_quantum u hu,
    hprod, time.Time.Add]

/-- The result on a run of one or more well-formed tokens: only the last
token of the run is added. -/
theorem GetExpiryDate_run (t : time.Time) (toks : List Token) (last : Token)
    (hv : ∀ x ∈ toks ++ [last], x.valid) (hfit : last.duration ≤ 2 ^ 63 - 1) :
    GetExpiryDate t (String.mk (concatTokens (toks ++ [last]))) = t + last.duration := by
  have hne : toks ++ [last] ≠ [] := by simp
  have hlast : last.valid := hv last (by simp)
  have hw : concatTokens (toks ++ [last]) ≠ [] := by
    have h1 := regexp.length_le_concatTokens (toks ++ [last])
    intro h
    rw [h] at h1
    simp at h1
  unfold GetExpiryDate
  rw [regexp.FindAllStringSubmatch_run (toks ++ [last]) hne hv]
  simp only [List.foldl_cons, List.foldl_nil, regexp.lastCaptures, List.foldl_append]
  exact expiryStep_token t _ last hw hlast hfit

end shared

/-! ## GetExpiryDate -/

namespace regexp

theorem execute_of_matchGroup_none (s : List Char) (h : matchGroup s = none) :
    execute s = ([[], [], []], s) := by
  unfold execute
  cases s.length with
  | zero => rfl
  | succ n => simp [matchStar, h]

theorem matchGroup_none_of_suffix (s : List Char) (hs : ¬ containsToken s) (pre s1 : List Char)
    (h : s = pre ++ s1) : matchGroup s1 = none := by
  cases hm : matchGroup s1 with
  | none => rfl
  | some r =>
    obtain ⟨g1, g2, rest⟩ := r
    obtain ⟨hne, hd, u, hu, _, hs1⟩ := matchGroup_some s1 g1 g2 rest hm
    exact absurd ⟨pre, g1, u, rest, by rw [h, hs1, List.append_assoc], hne, hd, hu⟩ hs

/-- In a string without a token every match is empty. -/
theorem allMatches_empty (s : List Char) (hs : ¬ containsToken s) (fuel : Nat) :
    ∀ (pre s1 : List Char) (pos : Nat) (prevMatchEnd : Int), s = pre ++ s1 →
      ∀ m ∈ allMatches shared.regex fuel s1 pos prevMatchEnd, m = [[], [], []] := by
  induction fuel with
  | zero => intro pre s1 pos prev _ m hm; simp [allMatches] at hm
  | succ f ih =>
    intro pre s1 pos prev h m hm
    have hex := execute_of_matchGroup_none s1 (matchGroup_none_of_suffix s hs pre s1 h)
    rw [allMatches_regex_succ] at hm
    simp only [hex, List.getD_cons_zero, List.length_nil, Nat.add_zero, if_true] at hm
    cases s1 with
    | nil =>
      simp only at hm
      split at hm
      · simp at hm
      · simpa using hm
    | cons c s2 =>
      simp only [List.mem_append] at hm
      rcases hm with hm | hm
      · split at hm
        · simp at hm
        · simpa using hm
      · exact ih (pre ++ [c]) s2 (pos + 1) _ (by simp [h]) m hm

end regexp

namespace shared

theorem foldl_expiryStep_empty (ms : List (List (List Char)))
    (h : ∀ m ∈ ms, m = [[], [], []]) (t : time.Time) : ms.foldl expiryStep t = t := by
  induction ms with
  | nil => rfl
  | cons m ms ih =>
    have hm : m = [[], [], []] := h m (List.mem_cons_self m ms)
    subst hm
    rw [List.foldl_cons]
    have : expiryStep t [[], [], []] = t := rfl
    rw [this]
    exact ih (fun x hx => h x (List.mem_cons_of_mem _ hx))

/-- C7: for every base timestamp `t`, every unit letter `u` among s, m, h, d,
w and every non-empty string `n` of ASCII decimal digits (leading zeros
allowed) whose value times the quantum of `u` fits in a signed 64-bit
nanosecond count, `GetExpiryDate t (n ++ u) = t + value n * quantum u`; in
particular `GetExpiryDate t "1d" = t + 24h` and
`GetExpiryDate t "90s" = t + 90s`. -/
theorem GetExpiryDate_single_token (t : time.Time) (n : List Char) (u : Char)
    (hne : n ≠ []) (hd : ∀ c ∈ n, '0' ≤ c ∧ c ≤ '9')
    (hu : u = 's' ∨ u = 'm' ∨ u = 'h' ∨ u = 'd' ∨ u = 'w')
    (hfit : (decimalValue n : Int) * quantum u ≤ 2 ^ 63 - 1) :
    GetExpiryDate t (String.mk (n ++ [u])) = t + (decimalValue n : Int) * quantum u ∧
      GetExpiryDate t "1d" = t + 24 * time.Hour ∧
      GetExpiryDate t "90s" = t + 90 * time.Second := by
  refine ⟨?_, ?_, ?_⟩
  · have h := GetExpiryDate_run t [] (n, u) (by simpa using ⟨hne, hd, hu⟩) hfit
    simpa [concatTokens, Token.text, Token.duration] using h
  · have h := GetExpiryDate_run t [] (['1'], 'd') (by decide) (by decide)
    exact h
  · have h := GetExpiryDate_run t [] (['9', '0'], 's') (by decide) (by decide)
    exact h

theorem GetExpiryDate_single_token_witness :
    GetExpiryDate 1000 (String.mk (['0', '7'] ++ ['w']))
        = 1000 + (decimalValue ['0', '7'] : Int) * quantum 'w' ∧
      GetExpiryDate 1000 "1d" = 1000 + 24 * time.Hour ∧
      GetExpiryDate 1000 "90s" = 1000 + 90 * time.Second :=
  GetExpiryDate_single_token 1000 ['0', '7'] 'w' (by decide) (by decide) (by decide) (by decide)

/-- C8: for every base timestamp `t` and every format string that contains no
substring of one or more ASCII digits immediately followed by one of the
letters s, m, h, d, w (the empty string, digits without a unit, unit letters
without digits, ...), `GetExpiryDate t format = t`. -/
theorem GetExpiryDate_no_token (t : time.Time) (format : String)
    (h : ¬ containsToken format.data) : GetExpiryDate t format = t := by
  unfold GetExpiryDate
  apply foldl_expiryStep_empty
  intro m hm
  exact regexp.allMatches_empty format.data h _ [] format.data 0 (-1) rfl m hm

theorem not_containsToken_of_no_unit (s : List Char)
    (h : ∀ u ∈ s, ¬ (u = 's' ∨ u = 'm' ∨ u = 'h' ∨ u = 'd' ∨ u = 'w')) : ¬ containsToken s := by
  rintro ⟨pre, ds, u, post, hs, _, _, hu⟩
  exact h u (by rw [hs]; simp) hu

theorem not_containsToken_of_no_digit (s : List Char)
    (h : ∀ c ∈ s, ¬ ('0' ≤ c ∧ c ≤ '9')) : ¬ containsToken s := by
  rintro ⟨pre, ds, u, post, hs, hne, hd, _⟩
  cases ds with
  | nil => exact hne rfl
  | cons d ds => exact h d (by rw [hs]; simp) (hd d (List.mem_cons_self d ds))

theorem GetExpiryDate_no_token_witness :
    (¬ containsToken "12".data ∧ GetExpiryDate 1000 "12" = 1000) ∧
      (¬ containsToken "dh".data ∧ GetExpiryDate 1000 "dh" = 1000) ∧
      (¬ containsToken "".data ∧ GetExpiryDate 1000 "" = 1000) :=
  ⟨⟨not_containsToken_of_no_unit _ (by decide),
      GetExpiryDate_no_token 1000 "12" (not_containsToken_of_no_unit _ (by decide))⟩,
    ⟨not_containsToken_of_no_digit _ (by decide),
      GetExpiryDate_no_token 1000 "dh" (not_containsToken_of_no_digit _ (by decide))⟩,
    ⟨not_containsToken_of_no_unit _ (by decide),
      GetExpiryDate_no_token 1000 "" (not_containsToken_of_no_unit _ (by decide))⟩⟩

/-- C10: within a run of adjacent tokens only the last token counts. For every
base timestamp `t` and every format string that is the concatenation of
`k ≥ 1` well-formed tokens (`toks` followed by `last`), the duration of the
last token fitting in a signed 64-bit nanosecond count, the pattern yields
one match for the whole run, whose capture groups hold the last token, and
`GetExpiryDate t format = t + value last * quantum (unit of last)`. -/
theorem GetExpiryDate_last_token_only (t : time.Time) (toks : List Token) (last : Token)
    (hv : ∀ x ∈ toks ++ [last], x.valid) (hfit : last.duration ≤ 2 ^ 63 - 1) :
    regexp.FindAllStringSubmatch regex (concatTokens (toks ++ [last]))
        = [[concatTokens (toks ++ [last]), last.1, [last.2]]] ∧
      GetExpiryDate t (String.mk (concatTokens (toks ++ [last])))
        = t + (decimalValue last.1 : Int) * quantum last.2 := by
  constructor
  · rw [regexp.FindAllStringSubmatch_run (toks ++ [last]) (by simp) hv]
    simp [regexp.lastCaptures, List.foldl_append]
  · exact GetExpiryDate_run t toks last hv hfit

theorem GetExpiryDate_last_token_only_witness :
    regexp.FindAllStringSubmatch regex
          (concatTokens ([(['2'], 'w'), (['1', '0'], 'h')] ++ [(['3'], 'd')]))
        = [[concatTokens ([(['2'], 'w'), (['1', '0'], 'h')] ++ [(['3'], 'd')]), ['3'], ['d']]] ∧
      GetExpiryDate 1000 (String.mk (concatTokens ([(['2'], 'w'), (['1', '0'], 'h')] ++ [(['3'], 'd')])))
        = 1000 + (decimalValue ['3'] : Int) * quantum 'd' :=
  GetExpiryDate_last_token_only 1000 [(['2'], 'w'), (['1', '0'], 'h')] (['3'], 'd')
    (by decide) (by decide)

/-- C1 (the code at the format "2w3d"): the whole string is one match whose
captures hold the token "3d", so the result is `t + 3 days` and not the
`t + 17 days` of the sum over both tokens. -/
theorem GetExpiryDate_2w3d (t : time.Time) :
    regexp.FindAllStringSubmatch regex "2w3d".data = ["2w3d".data, "3".data, "d".data] :: [] ∧
      GetExpiryDate t "2w3d" = t + 3 * (24 * time.Hour) ∧
      GetExpiryDate t "2w3d" ≠ t + 17 * (24 * time.Hour) := by
  have h := GetExpiryDate_run t [(['2'], 'w')] (['3'], 'd') (by decide) (by decide)
  have e : GetExpiryDate t "2w3d" = t + 3 * (24 * time.Hour) := h
  refine ⟨by decide, e, ?_⟩
  rw [e]
  intro h
  exact absurd (add_left_cancel h) (by decide)

/-- C2 (the code at the tokens "1d" and "2h"): "1d2h" gives `t + 2 hours`,
"2h1d" gives `t + 24 hours`; the two orders differ. -/
theorem GetExpiryDate_order_dependent (t : time.Time) :
    GetExpiryDate t "1d2h" = t + 2 * time.Hour ∧
      GetExpiryDate t "2h1d" = t + 24 * time.Hour ∧
      GetExpiryDate t "1d2h" ≠ GetExpiryDate t "2h1d" := by
  have h1 := GetExpiryDate_run t [(['1'], 'd')] (['2'], 'h') (by decide) (by decide)
  have h2 := GetExpiryDate_run t [(['2'], 'h')] (['1'], 'd') (by decide) (by decide)
  have e1 : GetExpiryDate t "1d2h" = t + 2 * time.Hour := h1
  have e2 : GetExpiryDate t "2h1d" = t + 24 * time.Hour := h2
  refine ⟨e1, e2, ?_⟩
  rw [e1, e2]
  intro h
  exact absurd (add_left_cancel h) (by decide)

/-- C9 (the code at the format "9223372036854775808s"): the match is not
empty, its first capture is the digit string of `2^63`, and `Atoi` on it
returns `2^63 - 1` together with a range error; the loop discards the error
and adds the wrapped product, so the result lies before the base. -/
theorem Atoi_error_discarded :
    regexp.FindAllStringSubmatch regex "9223372036854775808s".data
        = ["9223372036854775808s".data, "9223372036854775808".data, "s".data] :: [] ∧
      strconv.Atoi "9223372036854775808".data
        = (2 ^ 63 - 1, some strconv.NumError.ErrRange) ∧
      GetExpiryDate 0 "9223372036854775808s" = -1000000000 := by
  refine ⟨by decide, by decide, by decide⟩

end shared

/-! ## CreateGPGKeyring and VerifyFile -/

namespace shared

theorem dir_join (d : CleanPath) (name : String) : path.Dir (filepath.Join d name) = d := by
  cases d
  simp [path.Dir, filepath.Join]

/-- A successful `CreateGPGKeyring` returns the keyring file inside the
directory `ioutil.TempDir` created. -/
theorem CreateGPGKeyring_ok (env : Env) (keyserver : String) (keys : List String) (w w1 : World)
    (k : CleanPath) (hk : CreateGPGKeyring env keyserver keys w = (Except.ok k, w1)) :
    ∃ d, env.TempDir w = Except.ok d ∧ k = filepath.Join d "distrobuilder.gpg" := by
  unfold CreateGPGKeyring ioutil.TempDir at hk
  cases hT : env.TempDir w with
  | error e => simp [hT] at hk
  | ok d =>
    refine ⟨d, rfl, ?_⟩
    simp only [hT, os.MkdirAll, lxd.RunCommand] at hk
    generalize env.MkdirAll _ _ = m at hk
    cases m with
    | some e => simp at hk
    | none =>
      simp only at hk
      generalize env.RunCommand _ _ _ = r1 at hk
      obtain ⟨o1, e1⟩ := r1
      cases e1 with
      | some e => simp at hk
      | none =>
        simp only at hk
        generalize env.RunCommand _ _ _ = r2 at hk
        obtain ⟨o2, e2⟩ := r2
        cases e2 with
        | some e => simp at hk
        | none =>
          simp only [Prod.mk.injEq, Except.ok.injEq] at hk
          exact hk.1.symm

/-- C5: for every invocation of `VerifyFile` in which keyring creation
succeeds, with `r` the outcome of the gpg --verify call: if the call
succeeds (exit code 0, nil error) then `VerifyFile` returns `(true, nil)`,
and if it fails then `VerifyFile` returns `(false, err)` where the message of
`err` is "Failed to verify: " followed by the captured output. -/
theorem VerifyFile_result (env : Env) (signedFile signatureFile : String) (keys : List String)
    (keyserver : String) (w w1 : World) (k : CleanPath)
    (hk : CreateGPGKeyring env keyserver keys w = (Except.ok k, w1)) :
    ((env.RunCommand w1 "gpg" (verifyArgs k signatureFile signedFile)).2 = none →
        (VerifyFile env signedFile signatureFile keys keyserver w).1 = (true, none)) ∧
      ((env.RunCommand w1 "gpg" (verifyArgs k signatureFile signedFile)).2 ≠ none →
        (VerifyFile env signedFile signatureFile keys keyserver w).1 =
          (false, some ("Failed to verify: " ++
            (env.RunCommand w1 "gpg" (verifyArgs k signatureFile signedFile)).1))) := by
  unfold VerifyFile
  rw [hk]
  by_cases hs : signatureFile = ""
  · simp only [verifyArgs, hs, ne_eq, not_true_eq_false, if_false, lxd.RunCommand]
    generalize env.RunCommand w1 "gpg" _ = r
    obtain ⟨out, err⟩ := r
    cases err <;> simp
  · simp only [verifyArgs, hs, ne_eq, not_false_eq_true, if_true, lxd.RunCommand]
    generalize env.RunCommand w1 "gpg" _ = r
    obtain ⟨out, err⟩ := r
    cases err <;> simp

theorem VerifyFile_result_witness :
    (VerifyFile allSucceed "image.tar.xz" "image.tar.xz.asc" ["0x1234"] "" emptyWorld).1
        = (true, none) ∧
      (VerifyFile verifyFails "image.tar.xz" "image.tar.xz.asc" ["0x1234"] "" emptyWorld).1
        = (false, some "Failed to verify: gpg: BAD signature") :=
  ⟨(VerifyFile_result allSucceed "image.tar.xz" "image.tar.xz.asc" ["0x1234"] "" emptyWorld
      keyringWorld ⟨["", "tmp", "distrobuilder.123", "distrobuilder.gpg"]⟩ rfl).1 rfl,
    (VerifyFile_result verifyFails "image.tar.xz" "image.tar.xz.asc" ["0x1234"] "" emptyWorld
      keyringWorld ⟨["", "tmp", "distrobuilder.123", "distrobuilder.gpg"]⟩ rfl).2 (by decide)⟩

/-- C6: for every invocation of `VerifyFile` in which keyring creation succeeds
with artifact path `k`, there is a directory `d`, the one `ioutil.TempDir`
created, with `k = d/distrobuilder.gpg` and `path.Dir k = d`, such that
`VerifyFile` runs exactly one more command after keyring creation: gpg with
the arguments `--homedir d --keyring k --verify signedFile` when
`signatureFile` is empty, and
`--homedir d --keyring k --verify signatureFile signedFile` otherwise. -/
theorem VerifyFile_args (env : Env) (signedFile signatureFile : String) (keys : List String)
    (keyserver : String) (w w1 : World) (k : CleanPath)
    (hk : CreateGPGKeyring env keyserver keys w = (Except.ok k, w1)) :
    ∃ d, env.TempDir w = Except.ok d ∧ k = filepath.Join d "distrobuilder.gpg" ∧
      path.Dir k = d ∧
      (signatureFile = "" →
        (VerifyFile env signedFile signatureFile keys keyserver w).2.log =
          w1.log ++ [("gpg", ["--homedir", d.String, "--keyring", k.String, "--verify",
            signedFile])]) ∧
      (signatureFile ≠ "" →
        (VerifyFile env signedFile signatureFile keys keyserver w).2.log =
          w1.log ++ [("gpg", ["--homedir", d.String, "--keyring", k.String, "--verify",
            signatureFile, signedFile])]) := by
  obtain ⟨d, hd, hkd⟩ := CreateGPGKeyring_ok env keyserver keys w w1 k hk
  have hdir : path.Dir k = d := by rw [hkd, dir_join]
  refine ⟨d, hd, hkd, hdir, ?_, ?_⟩
  · intro hs
    unfold VerifyFile
    rw [hk]
    simp only [hs, ne_eq, not_true_eq_false, if_false, lxd.RunCommand, hdir]
    generalize env.RunCommand w1 "gpg" _ = r
    obtain ⟨out, err⟩ := r
    cases err <;> simp [os.RemoveAll]
  · intro hs
    unfold VerifyFile
    rw [hk]
    simp only [hs, ne_eq, not_false_eq_true, if_true, lxd.RunCommand, hdir]
    generalize env.RunCommand w1 "gpg" _ = r
    obtain ⟨out, err⟩ := r
    cases err <;> simp [os.RemoveAll]

theorem VerifyFile_args_witness :
    ∃ d : CleanPath, allSucceed.TempDir emptyWorld = Except.ok d ∧
      (⟨["", "tmp", "distrobuilder.123", "distrobuilder.gpg"]⟩ : CleanPath)
        = filepath.Join d "distrobuilder.gpg" ∧
      path.Dir ⟨["", "tmp", "distrobuilder.123", "distrobuilder.gpg"]⟩ = d ∧
      ("" = "" →
        (VerifyFile allSucceed "image.tar.xz" "" ["0x1234"] "" emptyWorld).2.log =
          keyringWorld.log ++ [("gpg", ["--homedir", d.String, "--keyring",
            CleanPath.String ⟨["", "tmp", "distrobuilder.123", "distrobuilder.gpg"]⟩, "--verify",
            "image.tar.xz"])]) ∧
      ("" ≠ "" →
        (VerifyFile allSucceed "image.tar.xz" "" ["0x1234"] "" emptyWorld).2.log =
          keyringWorld.log ++ [("gpg", ["--homedir", d.String, "--keyring",
            CleanPath.String ⟨["", "tmp", "distrobuilder.123", "distrobuilder.gpg"]⟩, "--verify",
            "", "image.tar.xz"])]) :=
  VerifyFile_args allSucceed "image.tar.xz" "" ["0x1234"] "" emptyWorld keyringWorld
    ⟨["", "tmp", "distrobuilder.123", "distrobuilder.gpg"]⟩ rfl

/-- C4 (the code when `os.MkdirAll` fails): `CreateGPGKeyring` returns the
error of `MkdirAll`, and the directory `ioutil.TempDir` created is still
there. -/
theorem CreateGPGKeyring_MkdirAll_failure :
    (CreateGPGKeyring mkdirFails "" ["0x1234"] emptyWorld).1
        = Except.error "mkdir /tmp/distrobuilder.123: permission denied" ∧
      (⟨["", "tmp", "distrobuilder.123"]⟩ : CleanPath)
        ∈ (CreateGPGKeyring mkdirFails "" ["0x1234"] emptyWorld).2.dirs := by
  constructor
  · rfl
  · decide

/-- C3 (the code when `os.MkdirAll` fails during keyring creation):
`VerifyFile` returns `(false, err)` with the error of `MkdirAll`, and the
temporary directory created for the invocation still exists afterwards. -/
theorem VerifyFile_MkdirAll_failure :
    (VerifyFile mkdirFails "image.tar.xz" "image.tar.xz.asc" ["0x1234"] "" emptyWorld).1
        = (false, some "mkdir /tmp/distrobuilder.123: permission denied") ∧
      (⟨["", "tmp", "distrobuilder.123"]⟩ : CleanPath)
        ∈ (VerifyFile mkdirFails "image.tar.xz" "image.tar.xz.asc" ["0x1234"] ""
            emptyWorld).2.dirs := by
  constructor
  · rfl
  · decide

end shared

/-! ## The fuel of the scan is enough -/

namespace regexp

/-- With more rounds than input left, the scan does not depend on the number
of rounds allowed. -/
theorem allMatches_fuel (f1 : Nat) :
    ∀ (f2 : Nat) (s : List Char) (pos : Nat) (prevMatchEnd : Int), s.length < f1 → s.length < f2 →
      allMatches shared.regex f1 s pos prevMatchEnd = allMatches shared.regex f2 s pos prevMatchEnd := by
  induction f1 with
  | zero => intro f2 s pos prev h1 _; omega
  | succ f ih =>
    intro f2 s pos prev h1 h2
    cases f2 with
    | zero => omega
    | succ f3 =>
      rw [allMatches_regex_succ, allMatches_regex_succ]
      by_cases he : pos + ((execute s).1.getD 0 []).length = pos
      · simp only [he, if_true]
        cases s with
        | nil => rfl
        | cons c s1 =>
          simp only [List.length_cons] at h1 h2
          simp only
          rw [ih f3 s1 (pos + 1) _ (by omega) (by omega)]
      · simp only [he, if_false]
        have hsplit := congrArg List.length (execute_split s)
        rw [List.length_append] at hsplit
        rw [ih f3 (execute s).2 _ _ (by omega) (by omega)]

end regexp

namespace shared

theorem expiryStep_add (t : time.Time) (m : List (List Char)) :
    expiryStep t m = t + expiryStep 0 m := by
  unfold expiryStep
  split
  · simp
  · simp [time.Time.Add]

theorem foldl_expiryStep_add (ms : List (List (List Char))) :
    ∀ t : time.Time, ms.foldl expiryStep t = t + ms.foldl expiryStep 0 := by
  induction ms with
  | nil => intro t; simp
  | cons m ms ih =>
    intro t
    rw [List.foldl_cons, List.foldl_cons, ih (expiryStep t m), ih (expiryStep 0 m),
      expiryStep_add t m]
    ring

end shared

namespace regexp

/-- The rounds `FindAllStringSubmatch` allows the scan with the pattern are
enough: any larger number gives the same matches. -/
theorem FindAllStringSubmatch_fuel (s : List Char) (fuel : Nat) (h : s.length < fuel) :
    allMatches shared.regex fuel s 0 (-1) = FindAllStringSubmatch shared.regex s :=
  allMatches_fuel fuel (s.length + 1) s 0 (-1) h (Nat.lt_succ_self _)

theorem FindAllStringSubmatch_fuel_witness :
    allMatches shared.regex 50 "2w3d 1h".data 0 (-1)
      = FindAllStringSubmatch shared.regex "2w3d 1h".data :=
  FindAllStringSubmatch_fuel "2w3d 1h".data 50 (by decide)

end regexp

namespace shared

/-- Tokens that are not adjacent are separate matches, and the loop adds
them up: "2w 3d" gives `t + 17 days`. -/
theorem GetExpiryDate_separated_tokens (t : time.Time) :
    GetExpiryDate t "2w 3d" = t + 17 * (24 * time.Hour) := by
  unfold GetExpiryDate
  rw [foldl_expiryStep_add]
  have h : (regexp.FindAllStringSubmatch regex "2w 3d".data).foldl expiryStep 0
      = 17 * (24 * time.Hour) := by decide
  rw [h]

theorem not_mem_RemoveAll (d : CleanPath) (w : World) : d ∉ (os.RemoveAll d w).dirs := by
  simp [os.RemoveAll]

theorem CreateGPGKeyring_dirs (env : Env) (keyserver : String) (keys : List String)
    (w : World) (d : CleanPath) (hT : env.TempDir w = Except.ok d)
    (hM : env.MkdirAll { w with dirs := d :: w.dirs } d = none) :
    (∀ e w1, CreateGPGKeyring env keyserver keys w = (Except.error e, w1) → d ∉ w1.dirs) ∧
      (∀ k w1, CreateGPGKeyring env keyserver keys w = (Except.ok k, w1) → d ∈ w1.dirs) := by
  unfold CreateGPGKeyring
  simp only [ioutil.TempDir, hT, os.MkdirAll, hM, lxd.RunCommand]
  generalize env.RunCommand _ _ _ = r1
  obtain ⟨o1, e1⟩ := r1
  cases e1 with
  | some e =>
    simp only
    refine ⟨?_, ?_⟩
    · intro e w1 h
      simp only [Prod.mk.injEq] at h
      rw [← h.2]
      simp [os.RemoveAll]
    · intro k w1 h
      simp at h
  | none =>
    simp only
    generalize env.RunCommand _ _ _ = r2
    obtain ⟨o2, e2⟩ := r2
    cases e2 with
    | some e =>
      simp only
      refine ⟨?_, ?_⟩
      · intro e w1 h
        simp only [Prod.mk.injEq] at h
        rw [← h.2]
        simp [os.RemoveAll]
      · intro k w1 h
        simp at h
    | none =>
      simp only
      refine ⟨?_, ?_⟩
      · intro e w1 h
        simp at h
      · intro k w1 h
        simp only [Prod.mk.injEq] at h
        rw [← h.2]
        simp

/-- Once `os.MkdirAll` has succeeded on the directory `d` that
`ioutil.TempDir` created, `CreateGPGKeyring` removes `d` on every failure
(of gpg --recv-keys or of gpg --export) and leaves it in place on success. -/
theorem CreateGPGKeyring_cleanup (env : Env) (keyserver : String) (keys : List String)
    (w : World) (d : CleanPath) (hT : env.TempDir w = Except.ok d)
    (hM : env.MkdirAll { w with dirs := d :: w.dirs } d = none) :
    (∀ e w1, CreateGPGKeyring env keyserver keys w = (Except.error e, w1) → d ∉ w1.dirs) ∧
      (∀ k w1, CreateGPGKeyring env keyserver keys w = (Except.ok k, w1) → d ∈ w1.dirs) :=
  CreateGPGKeyring_dirs env keyserver keys w d hT hM

theorem CreateGPGKeyring_cleanup_witness :
    (∀ e w1, CreateGPGKeyring verifyFails "" ["0x1234"] emptyWorld = (Except.error e, w1) →
        (⟨["", "tmp", "distrobuilder.123"]⟩ : CleanPath) ∉ w1.dirs) ∧
      (∀ k w1, CreateGPGKeyring verifyFails "" ["0x1234"] emptyWorld = (Except.ok k, w1) →
        (⟨["", "tmp", "distrobuilder.123"]⟩ : CleanPath) ∈ w1.dirs) :=
  CreateGPGKeyring_cleanup verifyFails "" ["0x1234"] emptyWorld ⟨["", "tmp", "distrobuilder.123"]⟩
    rfl rfl

/-- Once `os.MkdirAll` has succeeded on the directory `d` that
`ioutil.TempDir` created, `d` does not exist after `VerifyFile` returns,
whatever it returns. -/
theorem VerifyFile_cleanup (env : Env) (signedFile signatureFile : String) (keys : List String)
    (keyserver : String) (w : World) (d : CleanPath) (hT : env.TempDir w = Except.ok d)
    (hM : env.MkdirAll { w with dirs := d :: w.dirs } d = none) :
    d ∉ (VerifyFile env signedFile signatureFile keys keyserver w).2.dirs := by
  obtain ⟨herr, _⟩ := CreateGPGKeyring_dirs env keyserver keys w d hT hM
  unfold VerifyFile
  cases hc : CreateGPGKeyring env keyserver keys w with
  | mk res w1 =>
    cases res with
    | error e => exact herr e w1 hc
    | ok k =>
      obtain ⟨d2, hd2, hk2⟩ := CreateGPGKeyring_ok env keyserver keys w w1 k hc
      have hdd : d2 = d := by
        rw [hT] at hd2
        exact (Except.ok.inj hd2).symm
      subst hdd
      simp only [hk2, dir_join]
      exact not_mem_RemoveAll d2 _

theorem VerifyFile_cleanup_witness :
    (⟨["", "tmp", "distrobuilder.123"]⟩ : CleanPath)
      ∉ (VerifyFile verifyFails "image.tar.xz" "" ["0x1234"] "" emptyWorld).2.dirs :=
  VerifyFile_cleanup verifyFails "image.tar.xz" "" ["0x1234"] "" emptyWorld
    ⟨["", "tmp", "distrobuilder.123"]⟩ rfl rfl

end shared
